import Mathlib

/-!
Verification of the experimental generational mark-compact garbage collector
of `motoko-rts` (`src/rts/motoko-rts/src/gc/experimental.rs` together with
`src/rts/motoko-rts/src/types.rs`).

The heap is modelled shallowly: memory is a map from (word-aligned) byte
addresses to 32-bit word values, and each Rust function of the collector is
translated into an executable Lean function over that model.  Machine
integers (`usize`/`u32` on wasm32) are modelled as `Nat` with explicit
`% 2^32` where wrap-around matters.  `while` loops become fuel-indexed
recursions returning `Option` (with `none` for a failed `assert!` or
exhausted fuel), and runtime pieces that the two given source files do not
contain (the `Value` accessors, `visit_pointer_fields`, `object_size`) are
modelled from the specification, each marked as such in its doc comment.
-/

namespace MotokoGC

/-- Byte size of one machine word (`types.rs` line 7: `WORD_SIZE = 4`). -/
def WORD_SIZE : Nat := 4

/-- Modulus of 32-bit machine arithmetic (`usize` and `u32` on wasm32). -/
def M32 : Nat := 2 ^ 32

/-- Heap memory: the 32-bit word stored at each byte address.  The collector
only ever reads and writes whole words at word-aligned addresses, so a map
from addresses to word values is a faithful model of the linear memory. -/
abbrev Mem : Type := Nat → Nat

/-- Memory write of a single word. -/
def store (m : Mem) (a v : Nat) : Mem := fun x => if x = a then v else m x

/-- Skewed pointer construction (`types.rs` lines 83-85):
`skew(ptr) = ptr.wrapping_sub(1)` on a 32-bit `usize`. -/
def skew (p : Nat) : Nat := (p + (M32 - 1)) % M32

/-- Skewed pointer destruction (`types.rs` lines 77-81):
`unskew(v) = v.wrapping_add(1)` on a 32-bit `usize`. -/
def unskew (v : Nat) : Nat := (v + 1) % M32

/-- Modelled from the spec: `Value::get_raw` of the runtime value type, which
is absent from the `types.rs` in `src/`.  Per spec section 3.2 a pointer
field stores the skewed word itself, so `get_raw` returns the stored word
unchanged. -/
def get_raw (v : Nat) : Nat := v

/-- Modelled from the spec: `Value::get_ptr`, absent from the `types.rs` in
`src/`.  Per spec section 3.2 the stored word equals `address - 1`, so the
pointed-to address is recovered by unskewing. -/
def get_ptr (v : Nat) : Nat := unskew v

/-- Modelled from the spec: `Value::is_ptr`, absent from the `types.rs` in
`src/`.  Word-aligned heap addresses have low bit 0 (spec section 3.2), so a
skewed pointer word (`address - 1`) has low bit 1, which is what keeps raw
pointers distinguishable from unboxed scalar payloads. -/
def is_ptr (v : Nat) : Bool := v % 2 = 1

/-! Tag constants, from `types.rs` lines 92-104. -/

def TAG_OBJECT : Nat := 1

def TAG_OBJ_IND : Nat := 2

def TAG_ARRAY : Nat := 3

def TAG_BITS64 : Nat := 5

def TAG_MUTBOX : Nat := 6

def TAG_CLOSURE : Nat := 7

def TAG_SOME : Nat := 8

def TAG_VARIANT : Nat := 9

def TAG_BLOB : Nat := 10

def TAG_FWD_PTR : Nat := 11

def TAG_BITS32 : Nat := 12

def TAG_BIGINT : Nat := 13

def TAG_CONCAT : Nat := 14

/-- Modelled from the spec: `TAG_ONE_WORD_FILLER`, used by
`experimental.rs` but absent from the `types.rs` in `src/`.  Spec section
3.2 lists the filler tags directly after the legitimate object tags, so the
value continues the numbering of `types.rs`. -/
def TAG_ONE_WORD_FILLER : Nat := 15

/-- Modelled from the spec: `TAG_FREE_SPACE`, used by `experimental.rs` but
absent from the `types.rs` in `src/`; it follows `TAG_ONE_WORD_FILLER` in
the spec's tag list. -/
def TAG_FREE_SPACE : Nat := 16

/-- Collection strategy (`experimental.rs` lines 28-32). -/
inductive Strategy where
  | Young
  | Full
  deriving DecidableEq, Repr

/-- Critical memory limit (`experimental.rs` line 100):
`(4096 - 256) * 1024 * 1024` bytes. -/
def CRITICAL_MEMORY_LIMIT : Nat := (4096 - 256) * 1024 * 1024

/-- Strategy decision (`experimental.rs` lines 94-108).  The global `RUN`
counter is passed explicitly: `run` is its value before the call (the
function increments it first to `run + 1`). -/
def decide_strategy (run hp : Nat) : Strategy :=
  if (run + 1) % 3 = 0 then Strategy.Full
  else if CRITICAL_MEMORY_LIMIT ≤ hp then Strategy.Full
  else Strategy.Young

/-- Size of the generation being collected (`experimental.rs` lines
223-229): `free - last_free` for a Young cycle, `free - base` for Full. -/
def generation_size (strategy : Strategy) (base last_free free : Nat) : Nat :=
  match strategy with
  | Strategy.Young => free - last_free
  | Strategy.Full => free - base

/-- Compaction decision (`experimental.rs` lines 219-233):
`survival_rate() < 0.95` with `survival_rate = marked_space as f64 /
generation_size as f64`.  Both operands are 32-bit sizes, hence exactly
representable in `f64` (53-bit mantissa); the rounded quotient compares to
the rounded literal `0.95` exactly as the rational `marked/gen` compares to
`19/20`, because any distinct rational with denominator below `2^32` differs
from `19/20` by far more than one ulp.  When `gen = 0` the quotient is NaN
(or +inf), and the comparison is false, which again agrees with
`20 * marked < 19 * 0`.  The comparison is therefore embedded as the exact
integer inequality `20 * marked_space < 19 * gen_size`. -/
def is_compaction_beneficial (marked_space gen_size : Nat) : Bool :=
  decide (20 * marked_space < 19 * gen_size)

/-- Filter applied to each remembered-set entry on a Young cycle
(`experimental.rs` lines 273-279): the recorded location's current `value`
is marked only when `value.is_ptr() && value.get_raw() >= last_free`. -/
def young_remembered_check (last_free value : Nat) : Bool :=
  is_ptr value && decide (last_free ≤ get_raw value)

/-- Scope filter for threading (`experimental.rs` lines 343-349): on a Young
cycle only addresses at or above `last_free` participate; on a Full cycle
every dynamic-heap address does. -/
def should_be_threaded (strategy : Strategy) (last_free address : Nat) : Bool :=
  match strategy with
  | Strategy.Young => decide (last_free ≤ address)
  | Strategy.Full => true

/-- Thread one pointer field (`experimental.rs` lines 506-514): store the
pointed object's header word into the field and the field's address into
the pointed object's header. -/
def thread (strategy : Strategy) (last_free : Nat) (mem : Mem) (field : Nat) : Mem :=
  let pointed := get_ptr (mem field)
  if should_be_threaded strategy last_free pointed then
    let pointed_header := mem pointed
    store (store mem field pointed_header) pointed field
  else mem

/-- Per-field action of `thread_backward_pointer_fields` (`experimental.rs`
lines 409-416): thread the field iff its referent is a backward or self
pointer (`field_value.get_ptr() <= obj`). -/
def thread_backward_field (strategy : Strategy) (last_free : Nat) (mem : Mem)
    (obj field : Nat) : Mem :=
  let field_value := mem field
  if get_ptr field_value ≤ obj then thread strategy last_free mem field else mem

/-- Chain walk of `unthread` (`experimental.rs` lines 519-527): while the
current header word has low bit 0 it is a field address; write the skewed
`new_loc` into that field (`Value::from_ptr`) and follow the word that was
stored there.  The loop is fuel-indexed; besides the final memory it returns
the chain-terminating header word and the list of field addresses written,
in the order they were visited. -/
def unthread_loop (new_loc : Nat) : Nat → Mem → Nat → Option (Mem × Nat × List Nat)
  | fuel, mem, header =>
    if header % 2 = 0 then
      match fuel with
      | 0 => none
      | Nat.succ fuel' =>
        match unthread_loop new_loc fuel' (store mem header (skew new_loc)) (mem header) with
        | none => none
        | some (m, h, ws) => some (m, h, header :: ws)
    else some (mem, header, [])

/-- Unthread all references at an object's header (`experimental.rs` lines
517-533), rewriting every threaded field to (the skew of) `new_loc` and
restoring the original tag at the end of the chain.  The entry
`assert!(self.should_be_threaded(obj))` is modelled by returning `none`
when the assertion fails. -/
def unthread (strategy : Strategy) (last_free fuel : Nat) (mem : Mem)
    (obj new_loc : Nat) : Option (Mem × List Nat) :=
  if should_be_threaded strategy last_free obj then
    match unthread_loop new_loc fuel mem (mem obj) with
    | none => none
    | some (m, header, ws) => some (store m obj header, ws)
  else none

/-- Threading chain description: `chainFromB mem start fs t` holds when,
starting from the word `start`, following the words currently stored at the
successive field addresses `fs` (all of even address, as produced by
`thread`) ends at the word `t`. -/
def chainFromB (mem : Mem) : Nat → List Nat → Nat → Bool
  | start, [], t => start == t
  | start, f :: rest, t => start == f && f % 2 == 0 && chainFromB mem (mem f) rest t

/-- C9: `decide_strategy` returns `Full` exactly when this is a third
invocation (`(run + 1) % 3 = 0` for the pre-increment counter value `run`)
or the heap pointer has reached `CRITICAL_MEMORY_LIMIT = (4096 - 256)` MiB,
and returns `Young` in all other cases. -/
theorem decide_strategy_characterization (run hp : Nat) :
    (decide_strategy run hp = Strategy.Full ↔
      ((run + 1) % 3 = 0 ∨ CRITICAL_MEMORY_LIMIT ≤ hp)) ∧
    (decide_strategy run hp = Strategy.Young ↔
      ¬((run + 1) % 3 = 0 ∨ CRITICAL_MEMORY_LIMIT ≤ hp)) ∧
    CRITICAL_MEMORY_LIMIT = (4096 - 256) * 1024 * 1024 := by
  unfold decide_strategy
  by_cases h1 : (run + 1) % 3 = 0 <;> by_cases h2 : CRITICAL_MEMORY_LIMIT ≤ hp <;>
    simp [h1, h2, CRITICAL_MEMORY_LIMIT]

/-- C1 (code bug): the tag constants of `types.rs` lines 92-104 do NOT all
have the low bit set.  `TAG_OBJ_IND = 2` (and likewise `TAG_MUTBOX = 6`,
`TAG_SOME = 8`, `TAG_BLOB = 10`, `TAG_BITS32 = 12`, `TAG_CONCAT = 14`) is a
legitimate object tag lying in the claimed range `TAG_OBJECT ≤ t ≤ TAG_NULL`
(whatever value `TAG_NULL ≥ TAG_CONCAT` takes, the range contains all of
`types.rs`'s tags) yet has low bit 0, contradicting the low-bit
discrimination that `unthread` (`experimental.rs` lines 521-530) relies on
and documents. -/
theorem even_tags_in_legitimate_range :
    TAG_OBJECT ≤ TAG_OBJ_IND ∧ TAG_OBJ_IND ≤ TAG_CONCAT ∧ TAG_OBJ_IND % 2 = 0 ∧
    TAG_MUTBOX % 2 = 0 ∧ TAG_SOME % 2 = 0 ∧ TAG_BLOB % 2 = 0 ∧
    TAG_BITS32 % 2 = 0 ∧ TAG_CONCAT % 2 = 0 := by
  decide

/-- C5 (code bug): the remembered-set filter compares the RAW (skewed) word
against `last_free` (`experimental.rs` line 276 uses `object.get_raw()`, not
`object.get_ptr()`).  For a pointer to an object located exactly at
`last_free` (taking `last_free = 0x1010`), the stored word is
`skew 0x1010 = 0x100F`, the filter evaluates to `false` and the object is
skipped, although its unskewed target address is `≥ last_free` and the claim
(and the spec) require it to be marked. -/
theorem young_remembered_check_boundary_bug :
    young_remembered_check 4112 (skew 4112) = false ∧
    is_ptr (skew 4112) = true ∧
    get_ptr (skew 4112) = 4112 ∧
    4112 ≤ 4112 := by
  refine ⟨by decide, by decide, ?_, le_refl 4112⟩
  show unskew ((4112 + (M32 - 1)) % M32) = 4112
  norm_num [M32, unskew]

theorem chainFromB_store (mem : Mem) (f v start t : Nat) (fs : List Nat)
    (hf : f ∉ fs) : chainFromB (store mem f v) start fs t = chainFromB mem start fs t := by
  induction fs generalizing start with
  | nil => rfl
  | cons g rest ih =>
    simp only [List.mem_cons, not_or] at hf
    obtain ⟨hfg, hfr⟩ := hf
    have hsg : store mem f v g = mem g := by
      unfold store
      simp [Ne.symm hfg]
    simp only [chainFromB, hsg, ih (mem g) hfr]

theorem unthread_loop_spec (new_loc : Nat) (fs : List Nat) :
    ∀ (fuel : Nat) (mem : Mem) (start t : Nat),
      chainFromB mem start fs t = true → t % 2 = 1 → fs.Nodup → fs.length ≤ fuel →
      ∃ m, unthread_loop new_loc fuel mem start = some (m, t, fs) ∧
        (∀ f ∈ fs, m f = skew new_loc) ∧
        (∀ a, a ∉ fs → m a = mem a) := by
  induction fs with
  | nil =>
    intro fuel mem start t hchain ht _ _
    have hst : start = t := by
      simpa only [chainFromB, beq_iff_eq] using hchain
    subst hst
    refine ⟨mem, ?_, by simp, fun a _ => rfl⟩
    unfold unthread_loop
    rw [if_neg (by omega)]
  | cons f rest ih =>
    intro fuel mem start t hchain ht hnd hlen
    simp only [chainFromB, Bool.and_eq_true, beq_iff_eq, Nat.beq_eq_true_eq] at hchain
    obtain ⟨⟨hsf, hf2⟩, hrest⟩ := hchain
    rw [hsf]
    simp only [List.nodup_cons] at hnd
    obtain ⟨hfnotin, hndr⟩ := hnd
    cases fuel with
    | zero => simp at hlen
    | succ fuel' =>
      have hchain' : chainFromB (store mem f (skew new_loc)) (mem f) rest t = true := by
        rw [chainFromB_store mem f (skew new_loc) (mem f) t rest hfnotin]
        exact hrest
      obtain ⟨m, heq, hset, hframe⟩ :=
        ih fuel' (store mem f (skew new_loc)) (mem f) t hchain' ht hndr
          (by simpa using Nat.le_of_succ_le_succ hlen)
      refine ⟨m, ?_, ?_, ?_⟩
      · unfold unthread_loop
        rw [if_pos hf2]
        show (match unthread_loop new_loc fuel' (store mem f (skew new_loc)) (mem f) with
          | none => none
          | some (m2, h2, ws) => some (m2, h2, f :: ws)) = some (m, t, f :: rest)
        rw [heq]
      · intro g hg
        rcases List.mem_cons.mp hg with hgf | hgr
        · subst hgf
          rw [hframe g hfnotin]
          unfold store
          simp
        · exact hset g hgr
      · intro a ha
        simp only [List.mem_cons, not_or] at ha
        obtain ⟨haf, har⟩ := ha
        rw [hframe a har]
        unfold store
        simp [haf]

/-- C2: threading round-trip.  If the header of object `p` roots a chain of
threaded field addresses `fs` (each written by `thread` exactly once, hence
distinct) terminating in `p`'s original tag `t` (odd low bit), then
`unthread p new_loc` succeeds, writes the skewed pointer to `new_loc` into
every threaded field, writes each such field exactly once (the returned
write trace is precisely `fs`), restores `p`'s header to `t`, and leaves
every other memory word unchanged. -/
theorem unthread_roundtrip (strategy : Strategy) (last_free : Nat) (mem : Mem)
    (p new_loc t fuel : Nat) (fs : List Nat)
    (hchain : chainFromB mem (mem p) fs t = true)
    (ht : t % 2 = 1)
    (hnd : fs.Nodup)
    (hp : p ∉ fs)
    (hst : should_be_threaded strategy last_free p = true)
    (hfuel : fs.length ≤ fuel) :
    ∃ m, unthread strategy last_free fuel mem p new_loc = some (m, fs) ∧
      m p = t ∧
      (∀ f ∈ fs, m f = skew new_loc) ∧
      (∀ a, a ≠ p → a ∉ fs → m a = mem a) := by
  obtain ⟨m0, heq, hset, hframe⟩ :=
    unthread_loop_spec new_loc fs fuel mem (mem p) t hchain ht hnd hfuel
  refine ⟨store m0 p t, ?_, ?_, ?_, ?_⟩
  · unfold unthread
    rw [hst]
    simp only [if_true, heq]
  · unfold store
    simp
  · intro f hf
    have hfp : f ≠ p := fun h => hp (h ▸ hf)
    unfold store
    simp only [if_neg hfp]
    exact hset f hf
  · intro a hap hafs
    unfold store
    simp only [if_neg hap]
    exact hframe a hafs

/-- Concrete memory holding a two-field threaded chain: the header word of
the object at address 16 holds the field address 8, field 8 holds field
address 40, and field 40 holds the original tag 9. -/
def chainMem : Mem :=
  fun a => if a = 16 then 8 else if a = 8 then 40 else if a = 40 then 9 else 0

theorem unthread_roundtrip_witness :
    ∃ m, unthread Strategy.Full 0 2 chainMem 16 12 = some (m, [8, 40]) ∧
      m 16 = 9 ∧
      (∀ f ∈ [8, 40], m f = skew 12) ∧
      (∀ a, a ≠ 16 → a ∉ [8, 40] → m a = chainMem a) :=
  unthread_roundtrip Strategy.Full 0 chainMem 16 12 9 2 [8, 40]
    (by decide) (by decide) (by decide) (by decide) (by decide) (by decide)

/-- Address bookkeeping of `move_phase` (`experimental.rs` lines 444-467):
the `free` cursor yields each marked object's relocation target `p_new` and
then advances by the object's byte size
(`free += p_size_words.to_bytes().as_usize()`).  Input: the `(address,
byte size)` pairs of the marked objects in ascending bitmap order; output:
the `(old address, new address)` pairs. -/
def move_pairs (free : Nat) : List (Nat × Nat) → List (Nat × Nat)
  | [] => []
  | (a, s) :: rest => (a, free) :: move_pairs (free + s) rest

/-- Final value of the `free` cursor returned by `move_phase`
(`experimental.rs` line 469). -/
def move_phase_free (free : Nat) : List (Nat × Nat) → Nat
  | [] => free
  | (_, s) :: rest => move_phase_free (free + s) rest

/-- Initial value of the `free` cursor in `move_phase` (`experimental.rs`
lines 436-443): the heap base, moved up to `last_free` for a Young cycle. -/
def move_phase_start (strategy : Strategy) (base last_free : Nat) : Nat :=
  match strategy with
  | Strategy.Young => last_free
  | Strategy.Full => base

/-- Heap layout of the marked objects handed to the move pass, in ascending
bitmap order (the order `iter_bits` yields): every object starts at or
after the cursor's lower bound `start`, has positive size, objects do not
overlap, and the last object ends at or before `fin`. -/
def valid_layout (start fin : Nat) : List (Nat × Nat) → Bool
  | [] => decide (start ≤ fin)
  | (a, s) :: rest => decide (start ≤ a) && decide (0 < s) && valid_layout (a + s) fin rest

theorem valid_layout_mono {start' start fin : Nat} (l : List (Nat × Nat))
    (h : valid_layout start fin l = true) (hle : start' ≤ start) :
    valid_layout start' fin l = true := by
  cases l with
  | nil =>
    simp only [valid_layout, decide_eq_true_eq] at h ⊢
    omega
  | cons p rest =>
    obtain ⟨a, s⟩ := p
    simp only [valid_layout, Bool.and_eq_true, decide_eq_true_eq] at h ⊢
    exact ⟨⟨by omega, h.1.2⟩, h.2⟩

theorem move_phase_free_le (l : List (Nat × Nat)) :
    ∀ start fin, valid_layout start fin l = true → move_phase_free start l ≤ fin := by
  induction l with
  | nil =>
    intro start fin h
    simpa only [valid_layout, decide_eq_true_eq] using h
  | cons p rest ih =>
    intro start fin h
    obtain ⟨a, s⟩ := p
    simp only [valid_layout, Bool.and_eq_true, decide_eq_true_eq] at h
    obtain ⟨⟨hsa, _⟩, hrest⟩ := h
    exact ih (start + s) fin (valid_layout_mono rest hrest (by omega))

/-- C3: sliding never moves an object to a higher address, and the
ascending bitmap order of the survivors is preserved: both the old and the
new addresses of the move pairs are strictly increasing, and every new
address is at most the corresponding old address. -/
theorem move_phase_monotone (start fin : Nat) (l : List (Nat × Nat))
    (h : valid_layout start fin l = true) :
    (∀ pr ∈ move_pairs start l, pr.2 ≤ pr.1) ∧
    List.Chain' (fun x y => x < y) ((move_pairs start l).map Prod.snd) ∧
    List.Chain' (fun x y => x < y) ((move_pairs start l).map Prod.fst) := by
  induction l generalizing start with
  | nil => exact ⟨by simp [move_pairs], by simp [move_pairs], by simp [move_pairs]⟩
  | cons p rest ih =>
    obtain ⟨a, s⟩ := p
    simp only [valid_layout, Bool.and_eq_true, decide_eq_true_eq] at h
    obtain ⟨⟨hsa, hs⟩, hrest⟩ := h
    have hrest' : valid_layout (start + s) fin rest :=
      valid_layout_mono rest hrest (by omega)
    obtain ⟨ih1, ih2, ih3⟩ := ih (start + s) hrest'
    refine ⟨?_, ?_, ?_⟩
    · intro pr hpr
      rcases List.mem_cons.mp hpr with hpr | hpr
      · rw [hpr]
        exact hsa
      · exact ih1 pr hpr
    · cases rest with
      | nil => simp [move_pairs]
      | cons q rest2 =>
        obtain ⟨b, s2⟩ := q
        simp only [move_pairs, List.map_cons, List.chain'_cons] at ih2 ⊢
        exact ⟨by omega, ih2⟩
    · cases rest with
      | nil => simp [move_pairs]
      | cons q rest2 =>
        obtain ⟨b, s2⟩ := q
        simp only [valid_layout, Bool.and_eq_true, decide_eq_true_eq] at hrest
        simp only [move_pairs, List.map_cons, List.chain'_cons] at ih3 ⊢
        refine ⟨by omega, ih3⟩

theorem move_phase_monotone_witness :
    (∀ pr ∈ move_pairs 16 [(16, 8), (32, 8), (48, 4)], pr.2 ≤ pr.1) ∧
    List.Chain' (fun x y => x < y)
      ((move_pairs 16 [(16, 8), (32, 8), (48, 4)]).map Prod.snd) ∧
    List.Chain' (fun x y => x < y)
      ((move_pairs 16 [(16, 8), (32, 8), (48, 4)]).map Prod.fst) :=
  move_phase_monotone 16 52 [(16, 8), (32, 8), (48, 4)] (by decide)

/-- Final heap pointer chosen by `mark_compact` (`experimental.rs` lines
208-213): `free` starts at `heap_end` and is replaced by the result of
`move_phase` exactly when `is_compaction_beneficial()` holds; `set_hp` is
then called with this value. -/
def mark_compact_hp (strategy : Strategy) (base last_free heap_end marked_space : Nat)
    (objects : List (Nat × Nat)) : Nat :=
  if is_compaction_beneficial marked_space
      (generation_size strategy base last_free heap_end) then
    move_phase_free (move_phase_start strategy base last_free) objects
  else heap_end

/-- Relocations performed by `mark_compact`: the move pairs of `move_phase`
when compaction runs, and none when it is skipped. -/
def mark_compact_moves (strategy : Strategy) (base last_free heap_end marked_space : Nat)
    (objects : List (Nat × Nat)) : List (Nat × Nat) :=
  if is_compaction_beneficial marked_space
      (generation_size strategy base last_free heap_end) then
    move_pairs (move_phase_start strategy base last_free) objects
  else []

/-- Wrapping subtraction on 32-bit machine words, the release-mode meaning
of `old_hp - (get_hp() as u32)` in `experimental_gc_internal`
(`experimental.rs` line 154). -/
def u32_wrapping_sub (a b : Nat) : Nat := (M32 + a % M32 - b % M32) % M32

theorem u32_wrapping_sub_exact {a b : Nat} (hba : b ≤ a) (ha : a < M32) :
    u32_wrapping_sub a b = a - b := by
  unfold u32_wrapping_sub
  rw [Nat.mod_eq_of_lt ha, Nat.mod_eq_of_lt (lt_of_le_of_lt hba ha)]
  have h1 : M32 + a - b = M32 + (a - b) := by omega
  rw [h1, Nat.add_mod_left]
  exact Nat.mod_eq_of_lt (by omega)

/-- C4: gating of the compaction passes.  `is_compaction_beneficial` holds
exactly when `marked_space / generation_size < 0.95` (stated both as the
exact integer inequality and, whenever the generation is nonempty, as the
rational inequality `marked/gen < 19/20`); `generation_size` is
`free - last_free` for Young and `free - base` for Full; and when the test
fails, the value handed to `set_hp` is the unchanged pre-cycle `free` and
no object is moved. -/
theorem compaction_gating (strategy : Strategy) (base last_free free marked : Nat)
    (l : List (Nat × Nat)) :
    (is_compaction_beneficial marked (generation_size strategy base last_free free) = true ↔
      20 * marked < 19 * generation_size strategy base last_free free) ∧
    generation_size Strategy.Young base last_free free = free - last_free ∧
    generation_size Strategy.Full base last_free free = free - base ∧
    (0 < generation_size strategy base last_free free →
      (is_compaction_beneficial marked (generation_size strategy base last_free free) = true ↔
        (marked : ℚ) / (generation_size strategy base last_free free : ℚ) < 19 / 20)) ∧
    (is_compaction_beneficial marked (generation_size strategy base last_free free) = false →
      mark_compact_hp strategy base last_free free marked l = free ∧
      mark_compact_moves strategy base last_free free marked l = []) := by
  set g := generation_size strategy base last_free free with hg
  refine ⟨by simp [is_compaction_beneficial], rfl, rfl, ?_, ?_⟩
  · intro hgpos
    simp only [is_compaction_beneficial, decide_eq_true_eq]
    have hgq : (0 : ℚ) < (g : ℚ) := by exact_mod_cast hgpos
    rw [div_lt_div_iff₀ hgq (by norm_num)]
    constructor
    · intro h
      have : (20 * marked : ℚ) < (19 * g : ℚ) := by exact_mod_cast h
      nlinarith
    · intro h
      have : (20 * marked : ℚ) < (19 * g : ℚ) := by nlinarith
      exact_mod_cast this
  · intro hfail
    unfold mark_compact_hp mark_compact_moves
    rw [← hg, hfail]
    simp

theorem compaction_gating_witness :
    (is_compaction_beneficial 95 (generation_size Strategy.Young 0 16 116) = true ↔
      20 * 95 < 19 * generation_size Strategy.Young 0 16 116) ∧
    (is_compaction_beneficial 95 (generation_size Strategy.Young 0 16 116) = true ↔
      (95 : ℚ) / (generation_size Strategy.Young 0 16 116 : ℚ) < 19 / 20) ∧
    mark_compact_hp Strategy.Young 0 16 116 95 [(20, 8)] = 116 ∧
    mark_compact_moves Strategy.Young 0 16 116 95 [(20, 8)] = [] :=
  ⟨(compaction_gating Strategy.Young 0 16 116 95 [(20, 8)]).1,
   (compaction_gating Strategy.Young 0 16 116 95 [(20, 8)]).2.2.2.1 (by decide),
   (compaction_gating Strategy.Young 0 16 116 95 [(20, 8)]).2.2.2.2 (by decide)⟩

/-- C10: the heap pointer passed to `set_hp` by `mark_compact` never
exceeds the pre-cycle `free`: it is either the unchanged heap end or the
result of `move_phase`, which for a valid marked-object layout is bounded
by `free`.  Consequently the `u32` statistic `old_hp - get_hp()` of
`experimental_gc_internal` does not underflow: the wrapping subtraction
equals the exact non-negative difference. -/
theorem reclaimed_no_underflow (strategy : Strategy) (base last_free free marked : Nat)
    (l : List (Nat × Nat))
    (h : valid_layout (move_phase_start strategy base last_free) free l = true)
    (hfree : free < M32) :
    mark_compact_hp strategy base last_free free marked l ≤ free ∧
    u32_wrapping_sub free (mark_compact_hp strategy base last_free free marked l) =
      free - mark_compact_hp strategy base last_free free marked l := by
  have hle : mark_compact_hp strategy base last_free free marked l ≤ free := by
    unfold mark_compact_hp
    split
    · exact move_phase_free_le l (move_phase_start strategy base last_free) free h
    · exact le_refl free
  exact ⟨hle, u32_wrapping_sub_exact hle hfree⟩

theorem reclaimed_no_underflow_witness :
    mark_compact_hp Strategy.Full 0 0 24 0 [(8, 8), (16, 8)] ≤ 24 ∧
    u32_wrapping_sub 24 (mark_compact_hp Strategy.Full 0 0 24 0 [(8, 8), (16, 8)]) =
      24 - mark_compact_hp Strategy.Full 0 0 24 0 [(8, 8), (16, 8)] :=
  reclaimed_no_underflow Strategy.Full 0 0 24 0 [(8, 8), (16, 8)]
    (by decide) (by norm_num [M32])

/-- C6: per-field behaviour of the thread-backward pass.  A pointer field
`f` of the object at address `obj` is threaded (the swap of
`experimental.rs` lines 510-512: the field receives the referent's header
word and the referent's header receives the field address) if and only if
the unskewed field value `t = get_ptr(*f)` satisfies `t ≤ obj` and the
scope filter `should_be_threaded t` holds, where the filter is
`last_free ≤ t` under the Young strategy and always true under Full. -/
theorem thread_backward_field_iff (strategy : Strategy) (last_free : Nat) (mem : Mem)
    (obj f : Nat) :
    (get_ptr (mem f) ≤ obj ∧
        should_be_threaded strategy last_free (get_ptr (mem f)) = true →
      thread_backward_field strategy last_free mem obj f =
        store (store mem f (mem (get_ptr (mem f)))) (get_ptr (mem f)) f) ∧
    (¬(get_ptr (mem f) ≤ obj ∧
        should_be_threaded strategy last_free (get_ptr (mem f)) = true) →
      thread_backward_field strategy last_free mem obj f = mem) ∧
    (should_be_threaded Strategy.Young last_free (get_ptr (mem f)) = true ↔
      last_free ≤ get_ptr (mem f)) ∧
    should_be_threaded Strategy.Full last_free (get_ptr (mem f)) = true := by
  refine ⟨?_, ?_, by simp [should_be_threaded], rfl⟩
  · rintro ⟨h1, h2⟩
    unfold thread_backward_field thread
    simp [h1, h2]
  · intro hn
    unfold thread_backward_field thread
    by_cases h1 : get_ptr (mem f) ≤ obj
    · have h2 : should_be_threaded strategy last_free (get_ptr (mem f)) = false :=
        Bool.eq_false_iff.mpr (fun h => hn ⟨h1, h⟩)
      simp [h1, h2]
    · simp [h1]

/-- Concrete memory for exercising the thread-backward pass: the word at
field address 24 is the skewed pointer to the object at 16, whose header
word is the tag 9. -/
def backMem : Mem :=
  fun a => if a = 24 then skew 16 else if a = 16 then 9 else 0

theorem thread_backward_field_iff_witness :
    thread_backward_field Strategy.Full 0 backMem 20 24 =
      store (store backMem 24 (backMem (get_ptr (backMem 24)))) (get_ptr (backMem 24)) 24 :=
  (thread_backward_field_iff Strategy.Full 0 backMem 20 24).1
    ⟨by norm_num [backMem, get_ptr, unskew, skew, M32], rfl⟩

/-- Thread the forward pointer fields of one object
(`thread_fwd_pointers`, `experimental.rs` lines 490-503): for each pointer
field, thread it iff its unskewed referent lies strictly beyond the object.
The field enumeration `fields` stands for `visit_pointer_fields` of
`visitor.rs`, which is not among the files in `src/`; it is modelled from
the spec (section 4.1) as a parameter giving the pointer-field addresses of
the object at `obj`, and theorems constrain it only by the layout facts the
spec states. -/
def thread_fwd_pointers (fields : Mem → Nat → List Nat) (strategy : Strategy)
    (last_free : Nat) (mem : Mem) (obj : Nat) : Mem :=
  (fields mem obj).foldl
    (fun m f => if obj < get_ptr (m f) then thread strategy last_free m f else m) mem

/-- Old-generation forward-threading pass (`thread_old_generation_pointers`,
`experimental.rs` lines 473-487): scan `[base, last_free)` linearly by
object sizes; `assert!(tag < TAG_FREE_SPACE)` is modelled by returning
`none` when it fails; one-word fillers are skipped; other objects have
their forward pointer fields threaded.  `objSize` stands for `object_size`
of `types.rs`, which the `types.rs` in `src/` does not contain; it is
modelled from the spec (section 4.1: the size is derived from the header,
which this pass never modifies) as a function of the object's address, in
words.  The `assert!` on the object's `forward` header field is not
representable here because the `Obj` layout of the `types.rs` in `src/`
has no such field; it is modelled as always passing. -/
def thread_old_generation_pointers (fields : Mem → Nat → List Nat) (objSize : Nat → Nat)
    (strategy : Strategy) (last_free : Nat) : Nat → Mem → Nat → Option Mem
  | 0, _, _ => none
  | Nat.succ fuel, mem, pointer =>
    if pointer < last_free then
      if mem pointer < TAG_FREE_SPACE then
        thread_old_generation_pointers fields objSize strategy last_free fuel
          (if mem pointer ≠ TAG_ONE_WORD_FILLER
            then thread_fwd_pointers fields strategy last_free mem pointer else mem)
          (pointer + WORD_SIZE * objSize pointer)
      else none
    else some mem

/-- Linear object layout of the old generation `[base, last_free)` (spec
section 3.1: every address lies inside exactly one object): `addrs` lists
the successive object addresses, each followed by the next at distance
`WORD_SIZE * objSize`, ending exactly at `last_free`. -/
def linear_addrs (objSize : Nat → Nat) : Nat → Nat → List Nat → Bool
  | ptr, fin, [] => decide (ptr = fin)
  | ptr, fin, a :: rest =>
    decide (ptr = a) && decide (ptr < fin) &&
      linear_addrs objSize (ptr + WORD_SIZE * objSize ptr) fin rest

/-- Structured equivalent of the old-generation pass: visit the listed
objects in ascending order, thread the forward pointer fields of every
non-filler object, and skip one-word fillers. -/
def old_generation_fold (fields : Mem → Nat → List Nat) (strategy : Strategy)
    (last_free : Nat) : List Nat → Mem → Mem
  | [], mem => mem
  | a :: rest, mem =>
    old_generation_fold fields strategy last_free rest
      (if mem a ≠ TAG_ONE_WORD_FILLER
        then thread_fwd_pointers fields strategy last_free mem a else mem)

theorem thread_frame_young (last_free : Nat) (mem : Mem) (field x : Nat)
    (hxf : x ≠ field) (hx : x < last_free) :
    thread Strategy.Young last_free mem field x = mem x := by
  unfold thread
  by_cases hs : should_be_threaded Strategy.Young last_free (get_ptr (mem field)) = true
  · have hlf : last_free ≤ get_ptr (mem field) := by
      simpa [should_be_threaded] using hs
    rw [hs]
    unfold store
    simp only [if_true]
    rw [if_neg (by omega), if_neg hxf]
  · rw [Bool.eq_false_iff.mpr hs]
    simp

theorem fwd_foldl_frame (last_free obj : Nat) (L : List Nat) :
    ∀ (mem : Mem) (x : Nat), x ∉ L → x < last_free →
      L.foldl (fun m f => if obj < get_ptr (m f)
          then thread Strategy.Young last_free m f else m) mem x = mem x := by
  induction L with
  | nil => intro mem x _ _; rfl
  | cons f L2 ih =>
    intro mem x hx hxlf
    simp only [List.mem_cons, not_or] at hx
    obtain ⟨hxf, hxL⟩ := hx
    simp only [List.foldl_cons]
    rw [ih _ x hxL hxlf]
    by_cases hc : obj < get_ptr (mem f)
    · rw [if_pos hc]
      exact thread_frame_young last_free mem f x hxf hxlf
    · rw [if_neg hc]

theorem thread_fwd_pointers_frame (fields : Mem → Nat → List Nat)
    (last_free : Nat) (mem : Mem) (obj x : Nat)
    (hx : x ∉ fields mem obj) (hxlf : x < last_free) :
    thread_fwd_pointers fields Strategy.Young last_free mem obj x = mem x :=
  fwd_foldl_frame last_free obj (fields mem obj) mem x hx hxlf

theorem linear_addrs_mem (objSize : Nat → Nat) (l : List Nat) :
    ∀ ptr fin, linear_addrs objSize ptr fin l = true →
      ∀ b ∈ l, ptr ≤ b ∧ b < fin := by
  induction l with
  | nil => intro ptr fin _ b hb; cases hb
  | cons a rest ih =>
    intro ptr fin h b hb
    simp only [linear_addrs, Bool.and_eq_true, decide_eq_true_eq] at h
    obtain ⟨⟨hpa, hpf⟩, hrest⟩ := h
    rcases List.mem_cons.mp hb with hb | hb
    · subst hb
      omega
    · have := ih (ptr + WORD_SIZE * objSize ptr) fin hrest b hb
      omega

/-- C8 counterexample: the old-generation pass does NOT skip free-space
blocks.  On a heap whose first old-generation word is the tag
`TAG_FREE_SPACE`, the `assert!(tag < TAG_FREE_SPACE)` at
`experimental.rs` line 479 fails (modelled as `none`) and the collector
aborts instead of stepping over the block as the claim states. -/
theorem old_generation_free_space_aborts :
    thread_old_generation_pointers (fun _ _ => []) (fun _ => 1) Strategy.Young 8 2
      (fun a => if a = 0 then TAG_FREE_SPACE else 0) 0 = none := rfl

/-- C8 (amended): on a Young cycle the collector traverses
`[base, last_free)` linearly by object sizes before the bitmap-driven move
pass, and threads the forward pointer fields of every object it meets,
skipping one-word fillers — PROVIDED every traversed header tag satisfies
`tag < TAG_FREE_SPACE`; a free-space block instead fails the assertion and
aborts (see the counterexample).  Under that proviso the pass equals the
structured per-object fold. -/
theorem old_generation_traversal (fields : Mem → Nat → List Nat) (objSize : Nat → Nat)
    (last_free base fuel : Nat) (addrs : List Nat) (mem : Mem)
    (hfields : ∀ (m : Mem) (a : Nat), ∀ f ∈ fields m a,
      a < f ∧ f < a + WORD_SIZE * objSize a)
    (hlin : linear_addrs objSize base last_free addrs = true)
    (htags : ∀ a ∈ addrs, mem a < TAG_FREE_SPACE)
    (hfuel : addrs.length < fuel) :
    thread_old_generation_pointers fields objSize Strategy.Young last_free fuel mem base =
      some (old_generation_fold fields Strategy.Young last_free addrs mem) := by
  induction addrs generalizing base mem fuel with
  | nil =>
    have hbase : base = last_free := by
      simpa only [linear_addrs, decide_eq_true_eq] using hlin
    cases fuel with
    | zero => omega
    | succ fuel2 =>
      unfold thread_old_generation_pointers old_generation_fold
      rw [if_neg (by omega)]
  | cons a rest ih =>
    simp only [linear_addrs, Bool.and_eq_true, decide_eq_true_eq] at hlin
    obtain ⟨⟨hba, hblf⟩, hrest⟩ := hlin
    cases fuel with
    | zero => simp at hfuel
    | succ fuel2 =>
      subst hba
      have htaga : mem base < TAG_FREE_SPACE := htags base (List.mem_cons_self base rest)
      set mem2 := if mem base ≠ TAG_ONE_WORD_FILLER
        then thread_fwd_pointers fields Strategy.Young last_free mem base else mem with hmem2
      have hstable : ∀ b ∈ rest, mem2 b = mem b := by
        intro b hb
        obtain ⟨hnb, hbf⟩ :=
          linear_addrs_mem objSize rest (base + WORD_SIZE * objSize base) last_free hrest b hb
        rw [hmem2]
        split
        · refine thread_fwd_pointers_frame fields last_free mem base b ?_ hbf
          intro hbfield
          have := hfields mem base b hbfield
          omega
        · rfl
      have htags2 : ∀ b ∈ rest, mem2 b < TAG_FREE_SPACE := by
        intro b hb
        rw [hstable b hb]
        exact htags b (List.mem_cons.mpr (Or.inr hb))
      have hrec := ih (base + WORD_SIZE * objSize base) fuel2 mem2 hrest htags2
        (by simpa using Nat.lt_of_succ_lt_succ hfuel)
      unfold thread_old_generation_pointers old_generation_fold
      rw [if_pos hblf, if_pos htaga]
      exact hrec

/-- Field enumeration for the C8 witness: no pointer fields at all. -/
def noFields : Mem → Nat → List Nat := fun _ _ => []

/-- Object sizes for the C8 witness: every object is two words. -/
def twoWordSize : Nat → Nat := fun _ => 2

/-- Old generation for the C8 witness: a `MUTBOX` at address 0 followed by
a one-word filler tag at address 8, with `last_free = 16`. -/
def oldGenMem : Mem :=
  fun a => if a = 0 then TAG_MUTBOX else if a = 8 then TAG_ONE_WORD_FILLER else 0

theorem old_generation_traversal_witness :
    thread_old_generation_pointers noFields twoWordSize Strategy.Young 16 3 oldGenMem 0 =
      some (old_generation_fold noFields Strategy.Young 16 [0, 8] oldGenMem) :=
  old_generation_traversal noFields twoWordSize 16 0 3 [0, 8] oldGenMem
    (fun m a f hf => absurd hf (List.not_mem_nil f))
    (by decide) (by decide) (by decide)

/-- Word-by-word ascending copy (`mem_utils::memcpy_words`), as used by
`move_phase` to slide an object of `k` words from `src` to `dst`. -/
def memcpy_words : Mem → Nat → Nat → Nat → Mem
  | M, _, _, 0 => M
  | M, dst, src, Nat.succ k =>
    memcpy_words (store M dst (M src)) (dst + WORD_SIZE) (src + WORD_SIZE) k

/-- Bitmap iteration restricted by `bitmap_iter.advance(last_free)`
(`experimental.rs` line 441): on a Young cycle only the marked addresses at
or above `last_free` are yielded to the move pass. -/
def advance_marked (marked : List Nat) (last_free : Nat) : List Nat :=
  marked.filter (fun a => decide (last_free ≤ a))

/-- Body of the `while` loop of `move_phase` (`experimental.rs` lines
444-467) over the advanced bitmap's marked addresses: unthread the object
at `p` toward the cursor `free`, copy it down when it moves (writing the
forwarding word — spec section 4.6 step 2; the `forward` field is absent
from the `Obj` of the `types.rs` in `src/`, so the slot is modelled at word
offset 1 of the new location), thread its forward pointer fields, and
advance the cursor by the object's byte size. -/
def move_phase_loop (fields : Mem → Nat → List Nat) (objSize : Nat → Nat)
    (strategy : Strategy) (last_free ufuel : Nat) :
    List Nat → Mem → Nat → Option (Mem × Nat)
  | [], mem, free => some (mem, free)
  | p :: rest, mem, free =>
    match unthread strategy last_free ufuel mem p free with
    | none => none
    | some (mem1, _) =>
      let mem2 := if free ≠ p then
          store (memcpy_words mem1 free p (objSize p)) (free + WORD_SIZE) (skew free)
        else mem1
      let mem3 := thread_fwd_pointers fields strategy last_free mem2 free
      move_phase_loop fields objSize strategy last_free ufuel rest mem3
        (free + WORD_SIZE * objSize p)

/-- Classification of the locations that may legitimately appear as links
of a threading chain on a Young cycle: static root slots (below `base`),
old-generation fields threaded by the old-generation forward pass (the
list `L`), and young-generation locations (at or above `last_free`). -/
def link_location (base last_free : Nat) (L : List Nat) (x : Nat) : Prop :=
  x < base ∨ x ∈ L ∨ last_free ≤ x

/-- Chain walk: every even word reached from `start` by repeatedly reading
memory satisfies `P`, until an odd (tag) word ends the chain.  This is the
shape `unthread` relies on. -/
inductive WalkOk (M : Mem) (P : Nat → Prop) : Nat → Prop where
  | odd (x : Nat) (h : x % 2 = 1) : WalkOk M P x
  | step (x : Nat) (h : x % 2 = 0) (hP : P x) (next : WalkOk M P (M x)) : WalkOk M P x

theorem WalkOk_store_odd {M : Mem} {P : Nat → Prop} {y v x : Nat} (hv : v % 2 = 1)
    (h : WalkOk M P x) : WalkOk (store M y v) P x := by
  induction h with
  | odd z hz => exact WalkOk.odd z hz
  | step z hz hP hnext ih =>
    refine WalkOk.step z hz hP ?_
    by_cases hzy : z = y
    · have hs : store M y v z = v := by
        unfold store
        simp [hzy]
      rw [hs]
      exact WalkOk.odd v hv
    · have hs : store M y v z = M z := by
        unfold store
        simp [hzy]
      rw [hs]
      exact ih

theorem skew_odd_of_even {n : Nat} (hn : n % 2 = 0) : skew n % 2 = 1 := by
  unfold skew
  rw [Nat.mod_mod_of_dvd _ (by decide : (2 : Nat) ∣ M32)]
  have h1 : (M32 - 1) % 2 = 1 := by decide
  omega

theorem memcpy_words_frame : ∀ (k : Nat) (M : Mem) (dst src a : Nat), a < dst →
    memcpy_words M dst src k a = M a := by
  intro k
  induction k with
  | zero => intro M dst src a _; rfl
  | succ k2 ih =>
    intro M dst src a ha
    have hw : WORD_SIZE = 4 := rfl
    show memcpy_words (store M dst (M src)) (dst + WORD_SIZE) (src + WORD_SIZE) k2 a = M a
    rw [ih (store M dst (M src)) (dst + WORD_SIZE) (src + WORD_SIZE) a (by omega)]
    unfold store
    rw [if_neg (by omega)]

theorem unthread_some_inv {strategy : Strategy} {last_free fuel : Nat} {M : Mem}
    {p nl : Nat} {m1 : Mem} {ws : List Nat}
    (h : unthread strategy last_free fuel M p nl = some (m1, ws)) :
    should_be_threaded strategy last_free p = true ∧
    ∃ m0 h0, unthread_loop nl fuel M (M p) = some (m0, h0, ws) ∧ m1 = store m0 p h0 := by
  unfold unthread at h
  by_cases hs : should_be_threaded strategy last_free p = true
  · rw [hs] at h
    simp only [if_true] at h
    cases hloop : unthread_loop nl fuel M (M p) with
    | none => rw [hloop] at h; cases h
    | some tr =>
      obtain ⟨m0, h0, ws0⟩ := tr
      rw [hloop] at h
      simp only [Option.some.injEq, Prod.mk.injEq] at h
      exact ⟨hs, m0, h0, by rw [h.2], h.1.symm⟩
  · rw [Bool.eq_false_iff.mpr hs] at h
    simp only [Bool.false_eq_true, if_false] at h
    cases h

theorem unthread_loop_writes_in {P : Nat → Prop} {nl : Nat} (hnl : skew nl % 2 = 1) :
    ∀ (fuel : Nat) (M : Mem) (start : Nat) (m : Mem) (h : Nat) (ws : List Nat),
      unthread_loop nl fuel M start = some (m, h, ws) →
      WalkOk M P start →
      (∀ x ∈ ws, P x) ∧ (∀ a, a ∉ ws → m a = M a) := by
  intro fuel
  induction fuel with
  | zero =>
    intro M start m h ws heq hwalk
    unfold unthread_loop at heq
    by_cases hst : start % 2 = 0
    · rw [if_pos hst] at heq
      cases heq
    · rw [if_neg hst] at heq
      simp only [Option.some.injEq, Prod.mk.injEq] at heq
      obtain ⟨hm, _, hws⟩ := heq
      subst hm
      refine ⟨?_, fun a _ => rfl⟩
      intro x hx
      rw [← hws] at hx
      cases hx
  | succ f ih =>
    intro M start m h ws heq hwalk
    by_cases hst : start % 2 = 0
    · unfold unthread_loop at heq
      rw [if_pos hst] at heq
      have heq2 : (match unthread_loop nl f (store M start (skew nl)) (M start) with
        | none => none
        | some (m2, h2, ws2) => some (m2, h2, start :: ws2)) = some (m, h, ws) := heq
      cases hrec : unthread_loop nl f (store M start (skew nl)) (M start) with
      | none =>
        rw [hrec] at heq2
        cases heq2
      | some tr =>
        obtain ⟨m0, h0, ws0⟩ := tr
        rw [hrec] at heq2
        simp only [Option.some.injEq, Prod.mk.injEq] at heq2
        obtain ⟨hm, _, hws⟩ := heq2
        cases hwalk with
        | odd _ hz => omega
        | step _ _ hP hnext =>
          have hnext2 : WalkOk (store M start (skew nl)) P (M start) :=
            WalkOk_store_odd hnl hnext
          obtain ⟨hws0P, hframe0⟩ := ih (store M start (skew nl)) (M start) m0 h0 ws0 hrec hnext2
          subst hm
          constructor
          · intro x hx
            rw [← hws] at hx
            rcases List.mem_cons.mp hx with hx | hx
            · rw [hx]
              exact hP
            · exact hws0P x hx
          · intro a ha
            rw [← hws] at ha
            simp only [List.mem_cons, not_or] at ha
            obtain ⟨has, haws0⟩ := ha
            rw [hframe0 a haws0]
            unfold store
            rw [if_neg has]
    · unfold unthread_loop at heq
      rw [if_neg hst] at heq
      simp only [Option.some.injEq, Prod.mk.injEq] at heq
      obtain ⟨hm, _, hws⟩ := heq
      subst hm
      refine ⟨?_, fun a _ => rfl⟩
      intro x hx
      rw [← hws] at hx
      cases hx

theorem move_loop_frame_aux (fields : Mem → Nat → List Nat) (objSize : Nat → Nat)
    (base last_free ufuel : Nat) (L : List Nat)
    (hfields : ∀ (m : Mem) (o f : Nat), f ∈ fields m o → o < f) :
    ∀ (ms : List Nat) (M0 : Mem) (free0 : Nat) (memF : Mem) (freeF : Nat),
      last_free ≤ free0 → free0 % 2 = 0 →
      (∀ p ∈ ms, last_free ≤ p) →
      (∀ (pre : List Nat) (q : Nat) (suf : List Nat), ms = pre ++ q :: suf →
        ∀ (M : Mem) (fr : Nat),
          move_phase_loop fields objSize Strategy.Young last_free ufuel pre M0 free0 =
            some (M, fr) →
          WalkOk M (link_location base last_free L) (M q)) →
      move_phase_loop fields objSize Strategy.Young last_free ufuel ms M0 free0 =
        some (memF, freeF) →
      ∀ a, base ≤ a → a < last_free → a ∉ L → memF a = M0 a := by
  intro ms
  induction ms with
  | nil =>
    intro M0 free0 memF freeF _ _ _ _ hrun a _ _ _
    have hM : (some (M0, free0) : Option (Mem × Nat)) = some (memF, freeF) := hrun
    simp only [Option.some.injEq, Prod.mk.injEq] at hM
    rw [← hM.1]
  | cons p rest ih =>
    intro M0 free0 memF freeF hlffree hfree2 hms hstep hrun a hab half haL
    have hwalk : WalkOk M0 (link_location base last_free L) (M0 p) :=
      hstep [] p rest rfl M0 free0 rfl
    unfold move_phase_loop at hrun
    cases hu : unthread Strategy.Young last_free ufuel M0 p free0 with
    | none => rw [hu] at hrun; cases hrun
    | some pr =>
      obtain ⟨mem1, ws⟩ := pr
      rw [hu] at hrun
      obtain ⟨hsbt, m0, h0, hloop, hm1⟩ := unthread_some_inv hu
      have hnl : skew free0 % 2 = 1 := skew_odd_of_even hfree2
      obtain ⟨hwsP, hframe0⟩ :=
        unthread_loop_writes_in hnl ufuel M0 (M0 p) m0 h0 ws hloop hwalk
      have hrun2 : move_phase_loop fields objSize Strategy.Young last_free ufuel rest
          (thread_fwd_pointers fields Strategy.Young last_free
            (if free0 ≠ p then
              store (memcpy_words mem1 free0 p (objSize p)) (free0 + WORD_SIZE) (skew free0)
            else mem1) free0)
          (free0 + WORD_SIZE * objSize p) = some (memF, freeF) := hrun
      have hstep2 : ∀ (pre : List Nat) (q : Nat) (suf : List Nat), rest = pre ++ q :: suf →
          ∀ (M : Mem) (fr : Nat),
            move_phase_loop fields objSize Strategy.Young last_free ufuel pre
              (thread_fwd_pointers fields Strategy.Young last_free
                (if free0 ≠ p then
                  store (memcpy_words mem1 free0 p (objSize p)) (free0 + WORD_SIZE) (skew free0)
                else mem1) free0)
              (free0 + WORD_SIZE * objSize p) = some (M, fr) →
            WalkOk M (link_location base last_free L) (M q) := by
        intro pre q suf hsplit M fr hpre
        refine hstep (p :: pre) q suf (by rw [hsplit, List.cons_append]) M fr ?_
        show move_phase_loop fields objSize Strategy.Young last_free ufuel (p :: pre) M0 free0 =
          some (M, fr)
        unfold move_phase_loop
        rw [hu]
        exact hpre
      have hse : (WORD_SIZE * objSize p) % 2 = 0 := by
        have hw : WORD_SIZE = 4 := rfl
        rw [hw]
        omega
      have hmemF := ih
        (thread_fwd_pointers fields Strategy.Young last_free
          (if free0 ≠ p then
            store (memcpy_words mem1 free0 p (objSize p)) (free0 + WORD_SIZE) (skew free0)
          else mem1) free0)
        (free0 + WORD_SIZE * objSize p) memF freeF
        (by omega) (by omega) (fun q hq => hms q (List.mem_cons.mpr (Or.inr hq)))
        hstep2 hrun2 a hab half haL
      have hw : WORD_SIZE = 4 := rfl
      have h3 : thread_fwd_pointers fields Strategy.Young last_free
          (if free0 ≠ p then
            store (memcpy_words mem1 free0 p (objSize p)) (free0 + WORD_SIZE) (skew free0)
          else mem1) free0 a =
          (if free0 ≠ p then
            store (memcpy_words mem1 free0 p (objSize p)) (free0 + WORD_SIZE) (skew free0)
          else mem1) a := by
        refine thread_fwd_pointers_frame fields last_free _ free0 a ?_ half
        intro hmem
        have := hfields _ free0 a hmem
        omega
      have h2 : (if free0 ≠ p then
          store (memcpy_words mem1 free0 p (objSize p)) (free0 + WORD_SIZE) (skew free0)
        else mem1) a = mem1 a := by
        by_cases hfp : free0 ≠ p
        · rw [if_pos hfp]
          unfold store
          rw [if_neg (by omega)]
          exact memcpy_words_frame (objSize p) mem1 free0 p a (by omega)
        · rw [if_neg hfp]
      have h1 : mem1 a = M0 a := by
        rw [hm1]
        unfold store
        have hap : a ≠ p := by
          have := hms p (List.mem_cons_self p rest)
          omega
        rw [if_neg hap]
        refine hframe0 a ?_
        intro haws
        rcases hwsP a haws with hc | hc | hc
        · omega
        · exact haL hc
        · omega
      rw [hmemF, h3, h2, h1]

/-- C7: generational scope of a Young compaction.  The bitmap iterator is
advanced past the old generation, so every object handed to the move pass —
hence every relocated object — lies at or above `last_free`; and for every
address `a` of the old generation `[base, last_free)` that is not one of
the old-generation pointer fields `L` threaded by the preceding
`thread_old_generation_pointers` pass (the only phase that threads
old-generation locations on a Young cycle: backward-pass threading is
advanced past the old generation and static roots live below `base`), the
byte content at `a` after the move pass equals the content before it.  The
hypothesis `hstep` records the chain discipline the earlier phases
establish: whenever the loop reaches an object, the threading chain rooted
at its header visits only legal link locations (static slots, `L`, or
young addresses). -/
theorem move_phase_young_frame (fields : Mem → Nat → List Nat) (objSize : Nat → Nat)
    (base last_free ufuel : Nat) (L marked : List Nat) (mem memF : Mem) (freeF : Nat)
    (hfields : ∀ (m : Mem) (o f : Nat), f ∈ fields m o → o < f)
    (hlf2 : last_free % 2 = 0)
    (hstep : ∀ (pre : List Nat) (q : Nat) (suf : List Nat),
      advance_marked marked last_free = pre ++ q :: suf →
      ∀ (M : Mem) (fr : Nat),
        move_phase_loop fields objSize Strategy.Young last_free ufuel pre mem last_free =
          some (M, fr) →
        WalkOk M (link_location base last_free L) (M q))
    (hrun : move_phase_loop fields objSize Strategy.Young last_free ufuel
        (advance_marked marked last_free) mem last_free = some (memF, freeF)) :
    (∀ p ∈ advance_marked marked last_free, last_free ≤ p) ∧
    (∀ a, base ≤ a → a < last_free → a ∉ L → memF a = mem a) := by
  have hms : ∀ p ∈ advance_marked marked last_free, last_free ≤ p := by
    intro p hp
    have := List.of_mem_filter hp
    simpa using this
  exact ⟨hms, move_loop_frame_aux fields objSize base last_free ufuel L hfields
    (advance_marked marked last_free) mem last_free memF freeF (le_refl last_free) hlf2
    hms hstep hrun⟩

/-- Heap for the C7 witness: a single young object at 16 (header tag 9,
empty chain), old generation `[8, 16)`, and a dead young word at 12 that
the bitmap advance skips. -/
def youngMem : Mem := fun a => if a = 16 then 9 else 0

theorem move_phase_young_frame_witness :
    (∀ p ∈ advance_marked [12, 16] 16, 16 ≤ p) ∧
    (∀ a, 8 ≤ a → a < 16 → a ∉ ([] : List Nat) → store youngMem 16 9 a = youngMem a) := by
  have hrun : move_phase_loop noFields twoWordSize Strategy.Young 16 1
      (advance_marked [12, 16] 16) youngMem 16 = some (store youngMem 16 9, 24) := rfl
  refine move_phase_young_frame noFields twoWordSize 8 16 1 [] [12, 16] youngMem
    (store youngMem 16 9) 24 ?_ (by decide) ?_ hrun
  · intro m o f hf
    cases hf
  · intro pre q suf heq M fr hM
    have hadv : advance_marked [12, 16] 16 = [16] := rfl
    rw [hadv] at heq
    cases pre with
    | nil =>
      simp only [List.nil_append] at heq
      injection heq with h1 h2
      subst h1
      have hM2 : (some (youngMem, 16) : Option (Mem × Nat)) = some (M, fr) := hM
      simp only [Option.some.injEq, Prod.mk.injEq] at hM2
      rw [← hM2.1]
      exact WalkOk.odd (youngMem 16) (by decide)
    | cons b pre2 =>
      injection heq with h1 h2
      simp at h2

end MotokoGC
